import Mathlib

/-!
Shallow embedding of syphon/hash.py: the HashEntry / _OpenHashFile / HashFile
subsystem.  Manifest text is modelled as `List Char`; a stream is a pair of
content and cursor position; Python exceptions become an `Except` error side
carrying the state at the moment of the raise.
-/

set_option maxRecDepth 4000

namespace Syphon

/-- The whitespace characters matched by the Python regex class `\s` and by
`str.strip` on ASCII input. -/
def pyIsSpace (c : Char) : Bool :=
  c = ' ' || c = '\t' || c = '\n' || c = '\r' || c = '\x0b' || c = '\x0c'

/-- The character class `[a-fA-F0-9]` of the default line-split regex. -/
def isHexChar (c : Char) : Bool :=
  ('0' ≤ c && c ≤ '9') || ('a' ≤ c && c ≤ 'f') || ('A' ≤ c && c ≤ 'F')

/-- Python `str.strip()`: remove leading and trailing whitespace. -/
def pyStrip (l : List Char) : List Char :=
  ((l.dropWhile pyIsSpace).reverse.dropWhile pyIsSpace).reverse

/-- Python `sep.join(parts)`. -/
def pyJoin (sep : List Char) : List (List Char) → List Char
  | [] => []
  | [x] => x
  | x :: y :: xs => x ++ sep ++ pyJoin sep (y :: xs)

/-- One `readline` result: the characters up to and including the first
newline, or the whole remainder when no newline is present. -/
def takeLine : List Char → List Char
  | [] => []
  | c :: cs => if c = '\n' then [c] else c :: takeLine cs

/-- Model of `hashlib.algorithms_guaranteed`: the algorithm names the hashing library
can always instantiate. -/
def algorithms_available : List (List Char) :=
  ["md5", "sha1", "sha224", "sha256", "sha384", "sha512",
   "blake2b", "blake2s", "sha3_224", "sha3_256", "sha3_384", "sha3_512",
   "shake_128", "shake_256"].map String.toList

/-- Constant `DEFAULT_HASH_TYPE = hashlib.sha256().name`. -/
def DEFAULT_HASH_TYPE : List Char := "sha256".toList

/-- The internal `_hashlib.HASH` object: its algorithm name together with the
bytes fed to it so far via `update`. -/
structure HashObj where
  name : List Char
  fed : List Char
deriving DecidableEq, Repr

/-- The Python exceptions raised by this module. -/
inductive PyErr where
  | valueError : PyErr
  | malformedLine : List Char → PyErr
deriving DecidableEq, Repr

/-- The `SplitResult` named tuple. -/
structure SplitResult where
  hash : List Char
  file : List Char
  binary : Bool
deriving DecidableEq, Repr

/-- The fields of a `HashEntry` object. -/
structure HashEntry where
  hash_cache : List Char
  hash_obj : HashObj
  raw_entry : List Char
  binary : Bool
  filepath : List Char
deriving DecidableEq, Repr

/-- Constructor `HashEntry.__init__`: validates the hash type and starts with an empty
cache and a fresh accumulator. -/
def HashEntry.mk_init (filepath : List Char) (binary : Bool)
    (hash_type : Option (List Char)) : Except PyErr HashEntry :=
  let ht := hash_type.getD DEFAULT_HASH_TYPE
  if ht ∈ algorithms_available then
    .ok ⟨[], ⟨ht, []⟩, [], binary, filepath⟩
  else .error .valueError

/-- The `hash_type` property getter: `self._hash_obj.name`. -/
def HashEntry.hash_type (e : HashEntry) : List Char := e.hash_obj.name

/-- The `cached` property: `self._hash_cache != ""`. -/
def HashEntry.cached (e : HashEntry) : Bool := e.hash_cache ≠ []

/-- Method `HashEntry._hash`: feed the file contents into the accumulator and return
its hex digest.  The digest function of the hashing library is abstracted as
the argument `hexdigest`. -/
def HashEntry.calcHash (e : HashEntry) (contents : List Char)
    (hexdigest : HashObj → List Char) : List Char × HashEntry :=
  let obj : HashObj := ⟨e.hash_obj.name, e.hash_obj.fed ++ contents⟩
  (hexdigest obj, { e with hash_obj := obj })

/-- The `hash` property: return the cache when populated, otherwise compute
via `_hash`, store the result in the cache and return it.  The third
component counts how many times the target file was read. -/
def HashEntry.hashGet (e : HashEntry) (contents : List Char)
    (hexdigest : HashObj → List Char) : List Char × HashEntry × Nat :=
  if 0 < e.hash_cache.length then (e.hash_cache, e, 0)
  else
    let r := e.calcHash contents hexdigest
    (r.1, { r.2 with hash_cache := r.1 }, 1)

/-- The `hash_type` property setter: a no-op when set to the current name,
otherwise replace the accumulator by a fresh one of the new algorithm
(`hashlib.new`), failing when the name is unsupported. -/
def HashEntry.set_hash_type (e : HashEntry) (value : List Char) :
    Except PyErr HashEntry :=
  if e.hash_obj.name = value then .ok e
  else if value ∈ algorithms_available then
    .ok { e with hash_obj := ⟨value, []⟩ }
  else .error .valueError

/-- The value produced by the `hash` property, with the digest that `_hash`
would produce abstracted as `digest`; used where `__str__` or `update`
consume `self.hash`. -/
def HashEntry.hashVal (e : HashEntry) (digest : List Char) : List Char :=
  if 0 < e.hash_cache.length then e.hash_cache else digest

/-- Method `HashEntry.__str__`:
`" ".join([self.hash, ("*" if self.binary else " ") + self.filepath])`. -/
def HashEntry.toStr (e : HashEntry) (digest : List Char) : List Char :=
  pyJoin [' '] [e.hashVal digest, (if e.binary then ['*'] else [' ']) ++ e.filepath]

/-- Method `HashEntry._default_line_split`: the semantics of
`re.findall(r"^([a-fA-F0-9]+)\s+(.*)$", line.strip())` followed by the
binary-marker handling.  The regex anchors at the start, takes the maximal
hex run, then a maximal nonempty whitespace run, and the rest must contain
no newline. -/
def default_line_split (line : List Char) : Option SplitResult :=
  let s := pyStrip line
  let hex := s.takeWhile isHexChar
  let afterHex := s.dropWhile isHexChar
  let ws := afterHex.takeWhile pyIsSpace
  let rest := afterHex.dropWhile pyIsSpace
  if hex ≠ [] ∧ ws ≠ [] ∧ '\n' ∉ rest then
    let is_binary := rest.head? = some '*'
    some ⟨hex, if is_binary then rest.tail else rest, is_binary⟩
  else none

/-- Method `HashEntry.from_str` with the default splitter: parse the line, then
construct an entry of the given hash type whose cache is the parsed digest
and whose raw line is retained. -/
def HashEntry.from_str (entry : List Char) (hash_type : Option (List Char)) :
    Except PyErr HashEntry :=
  match default_line_split entry with
  | none => .error (.malformedLine (pyStrip entry))
  | some split =>
    let ht := hash_type.getD DEFAULT_HASH_TYPE
    if ht ∈ algorithms_available then
      .ok ⟨split.hash, ⟨ht, []⟩, entry, split.binary, split.file⟩
    else .error .valueError

/-- A seekable read/write text stream: its contents and cursor position. -/
structure FileStream where
  content : List Char
  pos : Nat
deriving DecidableEq, Repr

/-- Method `seek(n)` (absolute). -/
def FileStream.seekTo (f : FileStream) (n : Nat) : FileStream := { f with pos := n }

/-- Method `seek(0, 2)`: seek to the end of the stream. -/
def FileStream.seekEnd (f : FileStream) : FileStream :=
  { f with pos := f.content.length }

/-- Method `read()`: the remainder from the cursor; leaves the cursor at the end. -/
def FileStream.readAll (f : FileStream) : List Char × FileStream :=
  (f.content.drop f.pos, { f with pos := f.content.length })

/-- Method `readline()`: one line (newline included) from the cursor. -/
def FileStream.readline (f : FileStream) : List Char × FileStream :=
  let line := takeLine (f.content.drop f.pos)
  (line, { f with pos := f.pos + line.length })

/-- Method `write(s)`: overwrite at the cursor, extending the stream at the end. -/
def FileStream.write (f : FileStream) (s : List Char) : FileStream :=
  { content := f.content.take f.pos ++ s ++ f.content.drop (f.pos + s.length),
    pos := f.pos + s.length }

/-- The `_OpenHashFile` object: the wrapped stream and the configured hash
type (the `line_split` attribute is left at its `None` default, so parsing
uses the default splitter). -/
structure OpenHashFile where
  file : FileStream
  hash_type : List Char
deriving DecidableEq, Repr

/-- Method `_OpenHashFile.append`: guard the hash type, remember the position, seek
to the end, insert a newline first when the stream is nonempty and its last
character is not a newline, write the serialized entry plus a newline, and
restore the remembered position.  The error side carries the object state at
the moment of the raise. -/
def OpenHashFile.append (o : OpenHashFile) (entry : HashEntry)
    (digest : List Char) : Except (PyErr × OpenHashFile) OpenHashFile :=
  if entry.hash_type ≠ o.hash_type then .error (.valueError, o)
  else
    let initial_position := o.file.pos
    let f := o.file.seekEnd
    let here := f.pos
    let step : Bool × FileStream :=
      if here ≠ 0 then
        let f2 := f.seekTo (here - 1)
        let rr := f2.readAll
        (rr.1 ≠ ['\n'], rr.2)
      else (false, f)
    let f3 := step.2.write
      ((if step.1 then ['\n'] else []) ++ entry.toStr digest ++ ['\n'])
    .ok { o with file := f3.seekTo initial_position }

/-- Outcome of the scan loop inside `_OpenHashFile.update`: either the match
was found and the in-place overwrite performed, or the iterator was
exhausted. -/
inductive ScanResult where
  | found : FileStream → ScanResult
  | exhausted : FileStream → ScanResult
deriving DecidableEq, Repr

/-- The `for found in self.entries(): ...` loop of `_OpenHashFile.update`:
read a line; an empty read ends the iteration; otherwise parse it, and on a
filepath match seek back to the position recorded before the line was read
and overwrite the hash text.  The fuel argument bounds the recursion; every
call supplies enough for the whole remainder. -/
def updateScanAux (ht fp newHash : List Char) :
    Nat → FileStream → Nat → Except (PyErr × FileStream) ScanResult
  | 0, f, _ => .ok (.exhausted f)
  | n + 1, f, prev =>
    let line := takeLine (f.content.drop f.pos)
    if line.length = 0 then .ok (.exhausted f)
    else
      let f1 : FileStream := { f with pos := f.pos + line.length }
      match HashEntry.from_str line (some ht) with
      | .error e => .error (e, f1)
      | .ok found =>
        if fp = found.filepath then
          .ok (.found ((f1.seekTo prev).write newHash))
        else updateScanAux ht fp newHash n f1 f1.pos

/-- Method `_OpenHashFile.update`: guard the hash type, remember the position, scan
the entries from the current cursor; on a match the hash was overwritten in
place, otherwise fall back to `append`; finally restore the remembered
position. -/
def OpenHashFile.update (o : OpenHashFile) (entry : HashEntry)
    (digest : List Char) : Except (PyErr × OpenHashFile) OpenHashFile :=
  if entry.hash_type ≠ o.hash_type then .error (.valueError, o)
  else
    let initial_position := o.file.pos
    match updateScanAux o.hash_type entry.filepath (entry.hashVal digest)
        (o.file.content.length - o.file.pos + 1) o.file initial_position with
    | .error pe => .error (pe.1, { o with file := pe.2 })
    | .ok (.found f2) => .ok { o with file := f2.seekTo initial_position }
    | .ok (.exhausted f2) =>
      match OpenHashFile.append { o with file := f2 } entry digest with
      | .error pe => .error pe
      | .ok o2 => .ok { o2 with file := o2.file.seekTo initial_position }

/-- The world of open streams a `HashFile` can draw on: a supply of fresh
stream identities and the set of currently open ones. -/
structure ManifestWorld where
  nextId : Nat
  openIds : List Nat
deriving DecidableEq, Repr

/-- The `HashFile` object: acquisition counter, at most one live stream
(by identity), hash type and path. -/
structure HashFile where
  count : Int
  file : Option Nat
  hash_type : List Char
  filepath : List Char
deriving DecidableEq, Repr

/-- Constructor `HashFile.__init__`: validate the hash type; counter zero, no stream. -/
def HashFile.mk_init (filepath : List Char) (hash_type : Option (List Char)) :
    Except PyErr HashFile :=
  let ht := hash_type.getD DEFAULT_HASH_TYPE
  if ht ∈ algorithms_available then .ok ⟨0, none, ht, filepath⟩
  else .error .valueError

/-- Method `HashFile.__enter__`: increment the counter; reuse the live stream when
one exists, otherwise open a fresh one.  Returns the new object state, the
new world and the identity of the returned stream. -/
def HashFile.enter (h : HashFile) (w : ManifestWorld) :
    HashFile × ManifestWorld × Nat :=
  let h1 : HashFile := { h with count := h.count + 1 }
  match h1.file with
  | some s => (h1, w, s)
  | none =>
    ({ h1 with file := some w.nextId },
     ⟨w.nextId + 1, w.nextId :: w.openIds⟩, w.nextId)

/-- Method `HashFile.__exit__`: when a live stream exists, decrement the counter and
close the stream exactly when the counter reaches zero; otherwise do
nothing. -/
def HashFile.exit (h : HashFile) (w : ManifestWorld) :
    HashFile × ManifestWorld :=
  match h.file with
  | none => (h, w)
  | some s =>
    let c := h.count - 1
    if c = 0 then
      ({ h with count := c, file := none },
       { w with openIds := w.openIds.erase s })
    else ({ h with count := c }, w)

/-! ### Helper lemmas about the character and line primitives -/

theorem pyIsSpace_not_hex {c : Char} (h : pyIsSpace c = true) :
    isHexChar c = false := by
  simp only [pyIsSpace, Bool.or_eq_true, decide_eq_true_eq] at h
  rcases h with ((((h | h) | h) | h) | h) | h <;> subst h <;> decide

theorem hex_not_space {c : Char} (h : isHexChar c = true) :
    pyIsSpace c = false := by
  by_contra hc
  have := pyIsSpace_not_hex (c := c) (by revert hc; cases pyIsSpace c <;> simp)
  simp [this] at h

theorem hex_ne_newline {c : Char} (h : isHexChar c = true) : c ≠ '\n' := by
  intro hc
  subst hc
  simp [isHexChar, Char.le_def] at h

theorem takeLine_eq_nil_iff {l : List Char} : takeLine l = [] ↔ l = [] := by
  cases l with
  | nil => simp [takeLine]
  | cons c cs =>
    simp only [takeLine]
    constructor
    · intro h
      by_cases hc : c = '\n' <;> simp [hc] at h
    · intro h
      exact absurd h (by simp)

theorem takeLine_length_le (l : List Char) : (takeLine l).length ≤ l.length := by
  induction l with
  | nil => simp [takeLine]
  | cons c cs ih =>
    simp only [takeLine]
    by_cases hc : c = '\n' <;> simp [hc] <;> omega

theorem takeLine_append_of_mem {a : List Char} (h : '\n' ∈ a) (b : List Char) :
    takeLine (a ++ b) = takeLine a := by
  induction a with
  | nil => simp at h
  | cons c cs ih =>
    by_cases hc : c = '\n'
    · simp [takeLine, hc]
    · have hm : '\n' ∈ cs := by
        rcases List.mem_cons.mp h with h1 | h1
        · exact absurd h1.symm hc
        · exact h1
      simp [takeLine, hc, ih hm]

theorem takeLine_of_not_mem {s : List Char} (h : '\n' ∉ s) (t : List Char) :
    takeLine (s ++ '\n' :: t) = s ++ ['\n'] := by
  induction s with
  | nil => simp [takeLine]
  | cons c cs ih =>
    have hc : c ≠ '\n' := fun hc => h (by simp [hc])
    have hm : '\n' ∉ cs := fun hm => h (by simp [hm])
    simp [takeLine, hc, ih hm]

theorem takeLine_of_no_newline {l : List Char} (h : '\n' ∉ l) :
    takeLine l = l := by
  induction l with
  | nil => simp [takeLine]
  | cons c cs ih =>
    have hc : c ≠ '\n' := fun hc => h (by simp [hc])
    have hm : '\n' ∉ cs := fun hm => h (by simp [hm])
    simp [takeLine, hc, ih hm]

/-- A line that ends in a newline and has no interior newline is read back
exactly by `readline`, whatever follows it. -/
theorem takeLine_terminated {L : List Char} (h1 : L.getLast? = some '\n')
    (h2 : '\n' ∉ L.dropLast) (t : List Char) : takeLine (L ++ t) = L := by
  obtain ⟨ys, rfl⟩ := List.getLast?_eq_some_iff.mp h1
  have hys : '\n' ∉ ys := by simpa [List.dropLast_concat] using h2
  calc takeLine (ys ++ ['\n'] ++ t) = takeLine (ys ++ '\n' :: t) := by simp
    _ = ys ++ ['\n'] := takeLine_of_not_mem hys t

theorem drop_length_sub_one {l : List Char} {c : Char}
    (h : l.getLast? = some c) : l.drop (l.length - 1) = [c] := by
  obtain ⟨ys, rfl⟩ := List.getLast?_eq_some_iff.mp h
  have : (ys ++ [c]).length - 1 = ys.length := by simp
  rw [this, List.drop_left]

theorem takeWhile_append_all {p : Char → Bool} {b0 : Char} {t : List Char}
    (hb : p b0 = false) :
    ∀ {a : List Char}, (∀ c ∈ a, p c = true) →
      (a ++ b0 :: t).takeWhile p = a := by
  intro a
  induction a with
  | nil => intro _; simp [List.takeWhile_cons, hb]
  | cons c cs ih =>
    intro ha
    have hc : p c = true := ha c (by simp)
    simp [List.takeWhile_cons, hc, ih (fun d hd => ha d (by simp [hd]))]

theorem dropWhile_append_all {p : Char → Bool} {b0 : Char} {t : List Char}
    (hb : p b0 = false) :
    ∀ {a : List Char}, (∀ c ∈ a, p c = true) →
      (a ++ b0 :: t).dropWhile p = b0 :: t := by
  intro a
  induction a with
  | nil => intro _; simp [List.dropWhile_cons, hb]
  | cons c cs ih =>
    intro ha
    have hc : p c = true := ha c (by simp)
    simp [List.dropWhile_cons, hc, ih (fun d hd => ha d (by simp [hd]))]

/-- Splitting a stream into the successive `readline` results. -/
def linesOfAux : Nat → List Char → List (List Char)
  | 0, _ => []
  | n + 1, l =>
    if l = [] then []
    else takeLine l :: linesOfAux n (l.drop (takeLine l).length)

/-- All lines of a stream, in `readline` order, each carrying its newline
terminator except possibly the last. -/
def linesOf (l : List Char) : List (List Char) := linesOfAux l.length l

theorem linesOfAux_nil (n : Nat) : linesOfAux n [] = [] := by
  cases n <;> simp [linesOfAux]

theorem linesOfAux_sufficient :
    ∀ (n : Nat) {m : Nat} {l : List Char}, l.length ≤ n → l.length ≤ m →
      linesOfAux n l = linesOfAux m l := by
  intro n
  induction n with
  | zero =>
    intro m l hn _
    have : l = [] := by
      cases l with
      | nil => rfl
      | cons c cs => simp at hn
    subst this
    simp [linesOfAux_nil]
  | succ n ih =>
    intro m l hn hm
    by_cases hl : l = []
    · subst hl; simp [linesOfAux_nil]
    · have hlen : 0 < l.length := List.length_pos.mpr hl
      obtain ⟨m', rfl⟩ : ∃ m', m = m' + 1 := by
        cases m with
        | zero => omega
        | succ m' => exact ⟨m', rfl⟩
      simp only [linesOfAux, hl, if_false]
      have hk : 0 < (takeLine l).length :=
        List.length_pos.mpr (fun h => hl (takeLine_eq_nil_iff.mp h))
      have hk2 : (takeLine l).length ≤ l.length := takeLine_length_le l
      have hd : (l.drop (takeLine l).length).length = l.length - (takeLine l).length := by
        simp
      refine congrArg _ (ih ?_ ?_) <;> omega

theorem linesOf_cons {a : List Char} (h : a ≠ []) :
    linesOf a = takeLine a :: linesOf (a.drop (takeLine a).length) := by
  have hlen : 0 < a.length := List.length_pos.mpr h
  obtain ⟨m, hm⟩ : ∃ m, a.length = m + 1 := by
    cases hl : a.length with
    | zero => omega
    | succ m => exact ⟨m, rfl⟩
  have hk : 0 < (takeLine a).length :=
    List.length_pos.mpr (fun hx => h (takeLine_eq_nil_iff.mp hx))
  have hk2 : (takeLine a).length ≤ a.length := takeLine_length_le a
  unfold linesOf
  rw [hm]
  simp only [linesOfAux, h, if_false]
  refine congrArg _ (linesOfAux_sufficient m ?_ ?_) <;> simp <;> omega

theorem linesOfAux_append_last {s : List Char} (hs : '\n' ∉ s) :
    ∀ (n : Nat) (a : List Char), (a ++ (s ++ ['\n'])).length ≤ n →
      (a = [] ∨ a.getLast? = some '\n') →
      linesOfAux n (a ++ (s ++ ['\n'])) = linesOf a ++ [s ++ ['\n']] := by
  intro n
  induction n with
  | zero =>
    intro a hlen _
    simp at hlen
  | succ n ih =>
    intro a hlen hcond
    rcases hcond with rfl | hlast
    · simp only [List.nil_append]
      have hne : s ++ ['\n'] ≠ [] := by simp
      simp only [linesOfAux, hne, if_false]
      rw [show s ++ ['\n'] = s ++ '\n' :: [] from by simp,
        takeLine_of_not_mem hs]
      simp [linesOfAux_nil, linesOf]
    · have ha : a ≠ [] := by
        intro h; rw [h] at hlast; simp at hlast
      have hmem : '\n' ∈ a := List.mem_of_getLast?_eq_some hlast
      have hne2 : a ++ (s ++ ['\n']) ≠ [] := by simp [ha]
      simp only [linesOfAux, hne2, if_false]
      rw [takeLine_append_of_mem hmem]
      have hk : 0 < (takeLine a).length :=
        List.length_pos.mpr (fun hx => ha (takeLine_eq_nil_iff.mp hx))
      have hk2 : (takeLine a).length ≤ a.length := takeLine_length_le a
      rw [List.drop_append_of_le_length hk2]
      have hrec := ih (a.drop (takeLine a).length)
        (by
          simp only [List.length_append, List.length_drop, List.length_cons,
            List.length_nil] at hlen ⊢
          omega) ?later
      · rw [hrec, linesOf_cons ha]
        simp
      · by_cases hd : a.drop (takeLine a).length = []
        · exact Or.inl hd
        · refine Or.inr ?_
          rw [List.getLast?_drop]
          have : ¬ a.length ≤ (takeLine a).length ∨ a.length = (takeLine a).length := by
            omega
          rcases this with hlt | heq
          · simp [hlt, hlast]
          · exfalso
            apply hd
            rw [← heq, List.drop_length]

/-- Lemma: `readline` splitting of a newline-terminated stream extended by one
final newline-terminated line. -/
theorem linesOf_append_last {s : List Char} (hs : '\n' ∉ s) (a : List Char)
    (hcond : a = [] ∨ a.getLast? = some '\n') :
    linesOf (a ++ (s ++ ['\n'])) = linesOf a ++ [s ++ ['\n']] :=
  linesOfAux_append_last hs (a ++ (s ++ ['\n'])).length a le_rfl hcond

/-! ### Lemmas about the update scan loop -/

/-- A manifest line the update scan steps over: newline-terminated, no
interior newline, and parsing to an entry whose filepath differs from the
update target. -/
def SkipsLine (ht fp L : List Char) : Prop :=
  L ≠ [] ∧ L.getLast? = some '\n' ∧ '\n' ∉ L.dropLast ∧
    ∃ r, HashEntry.from_str L (some ht) = .ok r ∧ r.filepath ≠ fp

theorem updateScanAux_end (ht fp nh : List Char) (f : FileStream)
    (h : takeLine (f.content.drop f.pos) = []) (n : Nat) (prev : Nat) :
    updateScanAux ht fp nh n f prev = .ok (.exhausted f) := by
  cases n with
  | zero => rfl
  | succ n => simp [updateScanAux, h]

theorem updateScanAux_skip (ht fp nh : List Char) (f : FileStream)
    {L : List Char} {r : HashEntry} (n : Nat) (prev : Nat)
    (hL : takeLine (f.content.drop f.pos) = L) (hne : L ≠ [])
    (hfs : HashEntry.from_str L (some ht) = .ok r) (hfp : fp ≠ r.filepath) :
    updateScanAux ht fp nh (n + 1) f prev =
      updateScanAux ht fp nh n { f with pos := f.pos + L.length }
        (f.pos + L.length) := by
  have hlen : L.length ≠ 0 := fun h => hne (List.eq_nil_of_length_eq_zero h)
  simp [updateScanAux, hL, hlen, hfs, hfp]

theorem updateScanAux_hit (ht fp nh : List Char) (f : FileStream)
    {L : List Char} {r : HashEntry} (n : Nat) (prev : Nat)
    (hL : takeLine (f.content.drop f.pos) = L) (hne : L ≠ [])
    (hfs : HashEntry.from_str L (some ht) = .ok r) (hfp : fp = r.filepath) :
    updateScanAux ht fp nh (n + 1) f prev =
      .ok (.found ((FileStream.seekTo { f with pos := f.pos + L.length } prev).write nh)) := by
  have hlen : L.length ≠ 0 := fun h => hne (List.eq_nil_of_length_eq_zero h)
  simp [updateScanAux, hL, hlen, hfs, hfp]

/-- Stepping the scan over a block of non-matching, well-terminated lines:
the scan continues just past the block, with the recorded previous position
equal to the new cursor. -/
theorem updateScanAux_skipBlock (ht fp nh : List Char) :
    ∀ (P : List (List Char)) (m : Nat) (f : FileStream) (rest : List Char),
      (∀ L ∈ P, SkipsLine ht fp L) →
      f.content.drop f.pos = P.flatten ++ rest →
      updateScanAux ht fp nh (P.length + m) f f.pos =
        updateScanAux ht fp nh m { f with pos := f.pos + P.flatten.length }
          (f.pos + P.flatten.length) := by
  intro P
  induction P with
  | nil =>
    intro m f rest _ _
    simp
  | cons L P ih =>
    intro m f rest hP hdrop
    obtain ⟨hne, hlast, hint, r, hfs, hfp⟩ := hP L (by simp)
    rw [List.flatten_cons, List.append_assoc] at hdrop
    have hL : takeLine (f.content.drop f.pos) = L := by
      rw [hdrop]; exact takeLine_terminated hlast hint _
    have hstep := updateScanAux_skip ht fp nh f
      (P.length + m) f.pos hL hne hfs (fun h => hfp h.symm)
    rw [show (L :: P).length + m = P.length + m + 1 from by simp; omega, hstep]
    have hdrop2 : ({ f with pos := f.pos + L.length } : FileStream).content.drop
        (f.pos + L.length) = P.flatten ++ rest := by
      have : f.content.drop (f.pos + L.length) =
          (f.content.drop f.pos).drop L.length := by
        rw [List.drop_drop]
      simp only [this, hdrop, List.drop_left]
    have := ih m { f with pos := f.pos + L.length } rest
      (fun L' hL' => hP L' (by simp [hL'])) hdrop2
    rw [this]
    have harith : f.pos + L.length + P.flatten.length =
        f.pos + (L :: P).flatten.length := by
      simp [List.flatten_cons]
      omega
    rw [harith]

theorem length_le_flatten_length {P : List (List Char)}
    (h : ∀ L ∈ P, L ≠ []) : P.length ≤ P.flatten.length := by
  induction P with
  | nil => simp
  | cons L Ps ih =>
    have hL : L ≠ [] := h L (by simp)
    have h1 : 1 ≤ L.length := List.length_pos.mpr hL
    have := ih (fun L' hL' => h L' (by simp [hL']))
    simp only [List.length_cons, List.flatten_cons, List.length_append]
    omega

/-! ### General computation lemma for append -/

/-- Lemma: `append` on a matching hash type: the serialized entry plus a newline is
written at the end, preceded by one extra newline exactly when the stream is
nonempty and does not already end in a newline; the cursor is restored. -/
theorem append_ok (o : OpenHashFile) (e : HashEntry) (d : List Char)
    (ht : e.hash_type = o.hash_type) :
    o.append e d = .ok { o with file :=
      ⟨o.file.content ++
        ((if o.file.content = [] ∨ o.file.content.getLast? = some '\n'
          then [] else ['\n']) ++ (e.toStr d ++ ['\n'])),
        o.file.pos⟩ } := by
  have hguard : ¬ e.hash_type ≠ o.hash_type := by simp [ht]
  by_cases hc : o.file.content = []
  · simp [OpenHashFile.append, hguard, FileStream.seekEnd, FileStream.seekTo,
      FileStream.readAll, FileStream.write, hc]
  · have hpos : 0 < o.file.content.length := List.length_pos.mpr hc
    obtain ⟨c, hlast⟩ : ∃ c, o.file.content.getLast? = some c := by
      cases hl : o.file.content.getLast? with
      | none => exact absurd (List.getLast?_eq_none_iff.mp hl) hc
      | some c => exact ⟨c, rfl⟩
    have hdrop : o.file.content.drop (o.file.content.length - 1) = [c] :=
      drop_length_sub_one hlast
    have htake : o.file.content.take o.file.content.length = o.file.content :=
      by simp
    by_cases hnl : c = '\n'
    · subst hnl
      simp [OpenHashFile.append, hguard, FileStream.seekEnd, FileStream.seekTo,
        FileStream.readAll, FileStream.write, hc, hdrop, hlast, htake,
        List.drop_eq_nil_of_le]
    · have hlx : ¬ o.file.content.getLast? = some '\n' := by
        simp [hlast, hnl]
      simp [OpenHashFile.append, hguard, FileStream.seekEnd, FileStream.seekTo,
        FileStream.readAll, FileStream.write, hc, hdrop, hlx, htake,
        List.drop_eq_nil_of_le, hnl]

/-! ### Claim theorems -/

/-- C2 counterexample input: a binary-mode entry with cached hash `aa` and
filepath `f`. -/
def entryC2 : HashEntry :=
  ⟨"aa".toList, ⟨"sha256".toList, []⟩, [], true, "f".toList⟩

/-- C2 counterexample: the serialized form of a binary entry is
`aa *f` — a space AND the asterisk stand between digest and filepath — and
not `aa*f`, the form the claim describes (digest, one separator character,
filepath, nothing else). -/
theorem C2_counterexample :
    entryC2.toStr [] = "aa *f".toList ∧
      entryC2.toStr [] ≠ entryC2.hash_cache ++ '*' :: entryC2.filepath := by
  decide

/-- C2 (amended): the serialized textual form is the hex digest, then a
single space, then a mode marker that is `*` when binary is true and a
second space otherwise, then the filepath — i.e. exactly two characters
stand between digest and filepath. -/
theorem C2_serialization (e : HashEntry) (d : List Char) :
    e.toStr d =
      e.hashVal d ++ ' ' :: (if e.binary then '*' else ' ') :: e.filepath := by
  cases hb : e.binary <;> simp [HashEntry.toStr, pyJoin, hb]

/-- C4: appending or updating an entry whose hash type differs from the
stream hash type fails with the ValueError raised by the guard, before any
mutation: the returned state is the untouched input state. -/
theorem C4_mismatch_guard (o : OpenHashFile) (e : HashEntry) (d : List Char)
    (hm : e.hash_type ≠ o.hash_type) :
    o.append e d = .error (.valueError, o) ∧
      o.update e d = .error (.valueError, o) := by
  constructor
  · simp [OpenHashFile.append, hm]
  · simp [OpenHashFile.update, hm]

/-- C4 witness input: an md5 entry against a sha256 stream. -/
def entryC4 : HashEntry := ⟨[], ⟨"md5".toList, []⟩, [], false, "f".toList⟩

/-- C4 witness stream. -/
def streamC4 : OpenHashFile := ⟨⟨"aa  f\n".toList, 3⟩, "sha256".toList⟩

theorem C4_mismatch_guard_witness :
    streamC4.append entryC4 [] = .error (.valueError, streamC4) ∧
      streamC4.update entryC4 [] = .error (.valueError, streamC4) :=
  C4_mismatch_guard streamC4 entryC4 [] (by decide)

/-- C7: the hash property is memoized.  Once the cache is nonempty every
access returns the cached string with no file read; on an uncached entry the
first access reads the file once and the second access returns the same
value with no further read. -/
theorem C7_hash_memoized (e : HashEntry) (c c2 : List Char)
    (hd hd2 : HashObj → List Char)
    (hzero : e.hash_cache = [])
    (hne : hd ⟨e.hash_obj.name, e.hash_obj.fed ++ c⟩ ≠ []) :
    (e.hashGet c hd).2.2 = 1 ∧
    (e.hashGet c hd).2.1.hashGet c2 hd2 =
      ((e.hashGet c hd).1, (e.hashGet c hd).2.1, 0) ∧
    (∀ e' : HashEntry, e'.hash_cache ≠ [] →
      e'.hashGet c hd = (e'.hash_cache, e', 0)) := by
  have hlen : ¬ 0 < e.hash_cache.length := by simp [hzero]
  have hpos : 0 < (hd ⟨e.hash_obj.name, e.hash_obj.fed ++ c⟩).length :=
    List.length_pos.mpr hne
  refine ⟨?_, ?_, ?_⟩
  · simp [HashEntry.hashGet, HashEntry.calcHash, hlen]
  · simp [HashEntry.hashGet, HashEntry.calcHash, hlen, hpos]
  · intro e' he'
    have : 0 < e'.hash_cache.length := List.length_pos.mpr he'
    simp [HashEntry.hashGet, this]

/-- C7 witness entry: uncached sha256 entry. -/
def entryC7 : HashEntry := ⟨[], ⟨"sha256".toList, []⟩, [], false, "f".toList⟩

theorem C7_hash_memoized_witness :
    (entryC7.hashGet "xy".toList (fun _ => "d1".toList)).2.2 = 1 ∧
    (entryC7.hashGet "xy".toList (fun _ => "d1".toList)).2.1.hashGet
        "zz".toList (fun _ => "d2".toList) =
      ((entryC7.hashGet "xy".toList (fun _ => "d1".toList)).1,
       (entryC7.hashGet "xy".toList (fun _ => "d1".toList)).2.1, 0) ∧
    (∀ e' : HashEntry, e'.hash_cache ≠ [] →
      e'.hashGet "xy".toList (fun _ => "d1".toList) = (e'.hash_cache, e', 0)) :=
  C7_hash_memoized entryC7 "xy".toList "zz".toList
    (fun _ => "d1".toList) (fun _ => "d2".toList) (by decide) (by decide)

/-- C8: setting the hash type to its current value is a no-op; setting it to
a different supported name installs a fresh accumulator of that name while
leaving the cache (and every other field) untouched. -/
theorem C8_set_hash_type (e : HashEntry) (v : List Char)
    (hv : v ∈ algorithms_available) (hne : v ≠ e.hash_type) :
    e.set_hash_type e.hash_type = .ok e ∧
    e.set_hash_type v = .ok { e with hash_obj := ⟨v, []⟩ } ∧
    (∀ e', e.set_hash_type v = .ok e' →
      e'.hash_cache = e.hash_cache ∧ e'.filepath = e.filepath ∧
        e'.binary = e.binary ∧ e'.raw_entry = e.raw_entry) := by
  have hne' : ¬ e.hash_obj.name = v := fun h => hne (h.symm)
  refine ⟨?_, ?_, ?_⟩
  · simp [HashEntry.set_hash_type, HashEntry.hash_type]
  · simp [HashEntry.set_hash_type, hne', hv]
  · intro e' he'
    simp [HashEntry.set_hash_type, hne', hv] at he'
    simp [← he']

/-- C8 witness entry: sha256 entry with a cached value. -/
def entryC8 : HashEntry := ⟨"aa".toList, ⟨"sha256".toList, []⟩, [], false, "f".toList⟩

theorem C8_set_hash_type_witness :
    entryC8.set_hash_type entryC8.hash_type = .ok entryC8 ∧
    entryC8.set_hash_type "md5".toList =
      .ok { entryC8 with hash_obj := ⟨"md5".toList, []⟩ } ∧
    (∀ e', entryC8.set_hash_type "md5".toList = .ok e' →
      e'.hash_cache = entryC8.hash_cache ∧ e'.filepath = entryC8.filepath ∧
        e'.binary = entryC8.binary ∧ e'.raw_entry = entryC8.raw_entry) :=
  C8_set_hash_type entryC8 "md5".toList (by decide) (by decide)

/-- C9: acquisition increments the counter and, while a stream is live
(counter above zero), returns the same stream without touching the world;
release decrements the counter, closing the stream exactly when the counter
returns to zero and leaving it open otherwise. -/
theorem C9_handle_refcount (h : HashFile) (w : ManifestWorld) (s : Nat)
    (n : Int) (hf : h.file = some s) (hc : h.count = n) (hn : 0 < n) :
    ((h.enter w).1.count = n + 1 ∧ (h.enter w).1.file = some s ∧
      (h.enter w).2.1 = w ∧ (h.enter w).2.2 = s) ∧
    (h.exit w).1.count = n - 1 ∧
    (n = 1 → (h.exit w).1.file = none ∧
      (h.exit w).2.openIds = w.openIds.erase s) ∧
    (1 < n → (h.exit w).1.file = some s ∧ (h.exit w).2 = w) := by
  subst hc
  refine ⟨?_, ?_, ?_, ?_⟩
  · simp [HashFile.enter, hf]
  · by_cases h1 : h.count - 1 = 0 <;> simp [HashFile.exit, hf, h1]
  · intro h1
    have : h.count - 1 = 0 := by omega
    simp [HashFile.exit, hf, this]
  · intro h1
    have : ¬ h.count - 1 = 0 := by omega
    simp [HashFile.exit, hf, this]

/-- C9 witness: a handle acquired twice (counter 2, stream 0 live). -/
def handleC9 : HashFile := ⟨2, some 0, "sha256".toList, "m".toList⟩

/-- C9 witness world: stream 0 open. -/
def worldC9 : ManifestWorld := ⟨1, [0]⟩

theorem C9_handle_refcount_witness :
    ((handleC9.enter worldC9).1.count = 2 + 1 ∧
      (handleC9.enter worldC9).1.file = some 0 ∧
      (handleC9.enter worldC9).2.1 = worldC9 ∧
      (handleC9.enter worldC9).2.2 = 0) ∧
    (handleC9.exit worldC9).1.count = 2 - 1 ∧
    ((2 : Int) = 1 → (handleC9.exit worldC9).1.file = none ∧
      (handleC9.exit worldC9).2.openIds = worldC9.openIds.erase 0) ∧
    ((1 : Int) < 2 → (handleC9.exit worldC9).1.file = some 0 ∧
      (handleC9.exit worldC9).2 = worldC9) :=
  C9_handle_refcount handleC9 worldC9 0 2 rfl rfl (by decide)

/-- C10: releasing a handle with no live stream and counter zero is a
no-op: no error, state and world unchanged, counter still zero. -/
theorem C10_extra_release_noop (h : HashFile) (w : ManifestWorld)
    (hf : h.file = none) (hc : h.count = 0) :
    h.exit w = (h, w) ∧ (h.exit w).1.count = 0 := by
  refine ⟨?_, ?_⟩ <;> simp [HashFile.exit, hf, hc]

/-- C10 witness: a fully released handle. -/
def handleC10 : HashFile := ⟨0, none, "sha256".toList, "m".toList⟩

/-- C10 witness world. -/
def worldC10 : ManifestWorld := ⟨1, []⟩

theorem C10_extra_release_noop_witness :
    handleC10.exit worldC10 = (handleC10, worldC10) ∧
      (handleC10.exit worldC10).1.count = 0 :=
  C10_extra_release_noop handleC10 worldC10 rfl rfl

/-- C5: `append` on a matching entry restores the cursor, and a full
`readline` scan of the new contents ends with the serialized entry as its
last line. -/
theorem C5_append_frame (o : OpenHashFile) (e : HashEntry) (d : List Char)
    (ht : e.hash_type = o.hash_type) (hnl : '\n' ∉ e.toStr d) :
    ∃ o', o.append e d = .ok o' ∧
      o'.file.pos = o.file.pos ∧ o'.hash_type = o.hash_type ∧
      (linesOf o'.file.content).getLast? = some (e.toStr d ++ ['\n']) := by
  refine ⟨_, append_ok o e d ht, rfl, rfl, ?_⟩
  by_cases hc : o.file.content = [] ∨ o.file.content.getLast? = some '\n'
  · rw [if_pos hc, List.nil_append, linesOf_append_last hnl _ hc,
      List.getLast?_concat]
  · rw [if_neg hc,
      show o.file.content ++ (['\n'] ++ (e.toStr d ++ ['\n'])) =
        (o.file.content ++ ['\n']) ++ (e.toStr d ++ ['\n']) from by simp,
      linesOf_append_last hnl _ (Or.inr (List.getLast?_concat _)),
      List.getLast?_concat]

/-- C5 witness stream: mid-file cursor, contents not newline-terminated. -/
def streamC5 : OpenHashFile := ⟨⟨"aa  f".toList, 2⟩, "sha256".toList⟩

/-- C5 witness entry. -/
def entryC5 : HashEntry := ⟨"bb".toList, ⟨"sha256".toList, []⟩, [], true, "g".toList⟩

theorem C5_append_frame_witness :
    ∃ o', streamC5.append entryC5 [] = .ok o' ∧
      o'.file.pos = streamC5.file.pos ∧ o'.hash_type = streamC5.hash_type ∧
      (linesOf o'.file.content).getLast? = some (entryC5.toStr [] ++ ['\n']) :=
  C5_append_frame streamC5 entryC5 [] (by decide) (by decide)

/-- The string form of an entry whose hash is already cached. -/
theorem toStr_cached {e : HashEntry} (d : List Char) (hh : e.hash_cache ≠ []) :
    e.toStr d =
      e.hash_cache ++ ' ' :: (if e.binary then '*' else ' ') :: e.filepath := by
  have hlen : 0 < e.hash_cache.length := List.length_pos.mpr hh
  cases hb : e.binary <;>
    simp [HashEntry.toStr, pyJoin, HashEntry.hashVal, hlen, hb]

/-- Stripping is the identity on a string whose first and last characters
are not whitespace. -/
theorem pyStrip_eq_self {l : List Char} {a b : Char}
    (h1 : l.head? = some a) (ha : pyIsSpace a = false)
    (h2 : l.getLast? = some b) (hb : pyIsSpace b = false) :
    pyStrip l = l := by
  unfold pyStrip
  obtain ⟨t, rfl⟩ : ∃ t, l = a :: t := by
    cases l with
    | nil => simp at h1
    | cons x xs =>
      simp only [List.head?_cons, Option.some.injEq] at h1
      exact ⟨xs, by rw [h1]⟩
  have e1 : (a :: t).dropWhile pyIsSpace = a :: t := by
    simp [List.dropWhile_cons, ha]
  rw [e1]
  obtain ⟨t2, hrev⟩ : ∃ t2, (a :: t).reverse = b :: t2 := by
    have : (a :: t).reverse.head? = some b := by
      rw [List.head?_reverse]; exact h2
    cases hr : (a :: t).reverse with
    | nil => rw [hr] at this; simp at this
    | cons x xs =>
      rw [hr] at this
      simp only [List.head?_cons, Option.some.injEq] at this
      exact ⟨xs, by rw [this]⟩
  rw [hrev]
  have e2 : (b :: t2).dropWhile pyIsSpace = b :: t2 := by
    simp [List.dropWhile_cons, hb]
  rw [e2, ← hrev, List.reverse_reverse]

/-- C3 counterexample input: a text-mode entry whose filepath starts with
an asterisk. -/
def entryC3 : HashEntry :=
  ⟨"aa".toList, ⟨"sha256".toList, []⟩, [], false, "*f".toList⟩

/-- The entry the default splitter reads back from the serialization of
`entryC3`. -/
def parsedC3 : HashEntry :=
  ⟨"aa".toList, ⟨"sha256".toList, []⟩, "aa  *f".toList, true, "f".toList⟩

/-- C3 counterexample: serializing a text-mode entry with filepath `*f` and
parsing it back yields a binary entry with filepath `f`: the round trip
changes both the binary flag and the filepath. -/
theorem C3_counterexample :
    HashEntry.from_str (entryC3.toStr []) none = .ok parsedC3 ∧
      parsedC3.binary ≠ entryC3.binary ∧
      parsedC3.filepath ≠ entryC3.filepath :=
  ⟨rfl, by decide, by decide⟩

/-- C3 (amended): the round trip through `toStr` and `from_str` preserves
filepath, binary flag and cached hash for every entry whose cached hash is a
nonempty hex string and whose filepath is nonempty, free of newlines,
neither starts with whitespace or an asterisk nor ends with whitespace. -/
theorem C3_roundtrip (e : HashEntry) (d : List Char) (c0 c1 : Char)
    (hh : e.hash_cache ≠ [])
    (hhex : ∀ c ∈ e.hash_cache, isHexChar c = true)
    (hp0 : e.filepath.head? = some c0)
    (hc0s : pyIsSpace c0 = false) (hc0a : c0 ≠ '*')
    (hp1 : e.filepath.getLast? = some c1) (hc1s : pyIsSpace c1 = false)
    (hnl : '\n' ∉ e.filepath) :
    ∃ r, HashEntry.from_str (e.toStr d) none = .ok r ∧
      r.filepath = e.filepath ∧ r.binary = e.binary ∧
      r.hash_cache = e.hash_cache := by
  have hstr := toStr_cached (e := e) d hh
  obtain ⟨cache, obj, raw, bin, fp⟩ := e
  dsimp only at hh hhex hp0 hp1 hnl hstr ⊢
  obtain ⟨d0, hc, rfl⟩ : ∃ d0 hc, cache = d0 :: hc := by
    cases cache with
    | nil => exact absurd rfl hh
    | cons x xs => exact ⟨x, xs, rfl⟩
  obtain ⟨p', rfl⟩ : ∃ p', fp = c0 :: p' := by
    cases fp with
    | nil => simp at hp0
    | cons x xs =>
      simp only [List.head?_cons, Option.some.injEq] at hp0
      exact ⟨xs, by rw [hp0]⟩
  have hd0 : isHexChar d0 = true := hhex d0 (by simp)
  have hd0s : pyIsSpace d0 = false := hex_not_space hd0
  have hplast :
      ((' ' :: (if bin then '*' else ' ') :: (c0 :: p')) : List Char).getLast? = some c1 := by
    rw [show (' ' :: (if bin then '*' else ' ') :: (c0 :: p')) =
      [' ', (if bin then '*' else ' ')] ++ (c0 :: p') from rfl,
      List.getLast?_append, hp1]
    rfl
  set E : HashEntry := ⟨d0 :: hc, obj, raw, bin, c0 :: p'⟩ with hE
  have hstrip : pyStrip (E.toStr d) = E.toStr d := by
    refine pyStrip_eq_self (a := d0) (b := c1) ?_ hd0s ?_ hc1s
    · rw [hstr]; rfl
    · rw [hstr, List.getLast?_append, hplast]; rfl
  have hsp : isHexChar ' ' = false := by decide
  have htw : (E.toStr d).takeWhile isHexChar = d0 :: hc := by
    rw [hstr]
    exact takeWhile_append_all hsp hhex
  have hdw : (E.toStr d).dropWhile isHexChar =
      ' ' :: (if bin then '*' else ' ') :: (c0 :: p') := by
    rw [hstr]
    exact dropWhile_append_all hsp hhex
  unfold HashEntry.from_str default_line_split
  rw [hstrip]
  dsimp only
  rw [htw, hdw]
  cases bin
  · have hspT : pyIsSpace ' ' = true := by decide
    have hws : ((' ' :: ' ' :: c0 :: p') : List Char).takeWhile pyIsSpace
        = [' ', ' '] := by
      simp [List.takeWhile_cons, hspT, hc0s]
    have hrest : ((' ' :: ' ' :: c0 :: p') : List Char).dropWhile pyIsSpace
        = c0 :: p' := by
      simp [List.dropWhile_cons, hspT, hc0s]
    simp only [if_true, if_false, Bool.false_eq_true, hws, hrest]
    have hcond : (d0 :: hc : List Char) ≠ [] ∧ ([' ', ' '] : List Char) ≠ [] ∧
        '\n' ∉ c0 :: p' := ⟨by simp, by simp, hnl⟩
    rw [if_pos hcond]
    have hmem : (none : Option (List Char)).getD DEFAULT_HASH_TYPE ∈
        algorithms_available := by decide
    have hcs : ¬ ((c0 :: p' : List Char).head? = some '*') := by simp [hc0a]
    refine ⟨_, if_pos hmem, ?_, ?_, ?_⟩
    · dsimp only
      rw [if_neg hcs]
    · exact decide_eq_false hcs
    · rfl
  · have hstar : pyIsSpace '*' = false := by decide
    have hspT : pyIsSpace ' ' = true := by decide
    have hws : ((' ' :: '*' :: c0 :: p') : List Char).takeWhile pyIsSpace
        = [' '] := by
      simp [List.takeWhile_cons, hspT, hstar]
    have hrest : ((' ' :: '*' :: c0 :: p') : List Char).dropWhile pyIsSpace
        = '*' :: c0 :: p' := by
      simp [List.dropWhile_cons, hspT, hstar]
    simp only [if_true, hws, hrest]
    have hcond : (d0 :: hc : List Char) ≠ [] ∧ ([' '] : List Char) ≠ [] ∧
        '\n' ∉ '*' :: c0 :: p' := ⟨by simp, by simp, by simp [hnl]⟩
    rw [if_pos hcond]
    have hmem : (none : Option (List Char)).getD DEFAULT_HASH_TYPE ∈
        algorithms_available := by decide
    refine ⟨_, if_pos hmem, ?_, ?_, ?_⟩
    · simp
    · simp
    · rfl

/-- C3 witness entry: text-mode, cached hex hash, benign filepath. -/
def entryC3w : HashEntry :=
  ⟨"ab12".toList, ⟨"sha256".toList, []⟩, [], false, "data/x.csv".toList⟩

theorem C3_roundtrip_witness :
    ∃ r, HashEntry.from_str (entryC3w.toStr []) none = .ok r ∧
      r.filepath = entryC3w.filepath ∧ r.binary = entryC3w.binary ∧
      r.hash_cache = entryC3w.hash_cache :=
  C3_roundtrip entryC3w [] 'd' 'v' (by decide) (by decide) (by decide)
    (by decide) (by decide) (by decide) (by decide) (by decide)

/-- C1 counterexample stream: one entry for filepath `f`, cursor at end. -/
def streamC1 : OpenHashFile := ⟨⟨"aa  f\n".toList, 6⟩, "sha256".toList⟩

/-- C1 counterexample update entry: same filepath `f`, new hash `bb`. -/
def entryC1 : HashEntry :=
  ⟨"bb".toList, ⟨"sha256".toList, []⟩, [], false, "f".toList⟩

/-- The entry stored in the C1 counterexample manifest. -/
def parsedC1 : HashEntry :=
  ⟨"aa".toList, ⟨"sha256".toList, []⟩, "aa  f\n".toList, false, "f".toList⟩

/-- C1 counterexample: the manifest contains an entry for filepath `f` (its
one line parses to such an entry), yet `update` called with the cursor at
offset 6 (the end) does not overwrite the stored hash `aa`: it appends a
second line for `f`, because the scan starts at the cursor, not at the
start of the file. -/
theorem C1_counterexample :
    HashEntry.from_str ("aa  f\n".toList) (some streamC1.hash_type) =
        .ok parsedC1 ∧
      parsedC1.filepath = entryC1.filepath ∧
      streamC1.update entryC1 [] =
        .ok ⟨⟨"aa  f\nbb  f\n".toList, 6⟩, "sha256".toList⟩ :=
  ⟨rfl, rfl, rfl⟩

/-- Lemma: `update` with a matching line at or after the cursor, preceded
(from the cursor on) by non-matching lines, overwrites the digest of that
line in place — every byte up to the matched line survives via `take`, the
rest of the line and everything after it are untouched — and restores the
cursor.  Works for an arbitrary starting position. -/
theorem update_hit_from_cursor (o : OpenHashFile) (e : HashEntry)
    (d : List Char) (P : List (List Char)) (L oldH restL suf : List Char)
    (r : HashEntry)
    (ht : e.hash_type = o.hash_type)
    (hLdef : L = oldH ++ restL)
    (hdrop : o.file.content.drop o.file.pos = P.flatten ++ (L ++ suf))
    (hP : ∀ Li ∈ P, SkipsLine o.hash_type e.filepath Li)
    (hlast : L.getLast? = some '\n') (hint : '\n' ∉ L.dropLast)
    (hparse : HashEntry.from_str L (some o.hash_type) = .ok r)
    (hmatch : e.filepath = r.filepath)
    (hlen : (e.hashVal d).length = oldH.length) :
    o.update e d = .ok { o with file :=
      ⟨o.file.content.take (o.file.pos + P.flatten.length) ++
        (e.hashVal d ++ (restL ++ suf)), o.file.pos⟩ } := by
  have hguard : ¬ e.hash_type ≠ o.hash_type := by simp [ht]
  have hLne : L ≠ [] := by
    intro h; rw [h] at hlast; simp at hlast
  have hLpos : 0 < L.length := List.length_pos.mpr hLne
  have hPne : ∀ Li ∈ P, Li ≠ [] := fun Li hL => (hP Li hL).1
  have hPlen : P.length ≤ P.flatten.length := length_le_flatten_length hPne
  have hdlen : o.file.content.length - o.file.pos =
      P.flatten.length + (L.length + suf.length) := by
    have h := congrArg List.length hdrop
    simpa using h
  obtain ⟨m, hm⟩ : ∃ m,
      o.file.content.length - o.file.pos + 1 = P.length + (m + 1) :=
    ⟨o.file.content.length - o.file.pos - P.length, by omega⟩
  have hscan := updateScanAux_skipBlock o.hash_type e.filepath
    (e.hashVal d) P (m + 1) o.file (L ++ suf) hP hdrop
  have htl : takeLine (o.file.content.drop
      (o.file.pos + P.flatten.length)) = L := by
    rw [← List.drop_drop, hdrop, List.drop_left]
    exact takeLine_terminated hlast hint suf
  have hhit := updateScanAux_hit o.hash_type e.filepath
    (e.hashVal d)
    { o.file with pos := o.file.pos + P.flatten.length }
    m (o.file.pos + P.flatten.length) htl hLne hparse hmatch
  have hdropnh : o.file.content.drop
      (o.file.pos + P.flatten.length + (e.hashVal d).length) =
      restL ++ suf := by
    rw [hlen, show o.file.pos + P.flatten.length + oldH.length =
        o.file.pos + (P.flatten.length + oldH.length) from by omega,
      ← List.drop_drop, hdrop, hLdef,
      show P.flatten ++ (oldH ++ restL ++ suf) =
        (P.flatten ++ oldH) ++ (restL ++ suf) from by simp,
      show P.flatten.length + oldH.length =
        (P.flatten ++ oldH).length from by simp,
      List.drop_left]
  unfold OpenHashFile.update
  rw [if_neg hguard]
  dsimp only
  rw [hm, hscan, hhit]
  dsimp only [FileStream.seekTo, FileStream.write]
  rw [hdropnh, List.append_assoc]

/-- C1 (amended): `update` looks for a matching filepath only from the
current cursor position.  First conjunct: when a line at or after the
cursor parses to an entry with the target filepath (the lines between the
cursor and it parsing to other filepaths), its digest is overwritten in
place and the cursor restored.  Second conjunct: when every line at or
after the cursor parses to an entry with a different filepath, update falls
back to `append` — even if a matching entry sits before the cursor —
growing the manifest by the serialized entry line and restoring the
cursor. -/
theorem C1_update_scans_from_cursor (o : OpenHashFile) (e : HashEntry)
    (d : List Char) (P : List (List Char))
    (ht : e.hash_type = o.hash_type)
    (hP : ∀ Li ∈ P, SkipsLine o.hash_type e.filepath Li) :
    (∀ (L oldH restL suf : List Char) (r : HashEntry),
      L = oldH ++ restL →
      o.file.content.drop o.file.pos = P.flatten ++ (L ++ suf) →
      L.getLast? = some '\n' → '\n' ∉ L.dropLast →
      HashEntry.from_str L (some o.hash_type) = .ok r →
      e.filepath = r.filepath →
      (e.hashVal d).length = oldH.length →
      o.update e d = .ok { o with file :=
        ⟨o.file.content.take (o.file.pos + P.flatten.length) ++
          (e.hashVal d ++ (restL ++ suf)), o.file.pos⟩ }) ∧
    (o.file.content.drop o.file.pos = P.flatten →
      ∃ o', o.update e d = .ok o' ∧
        o'.file.pos = o.file.pos ∧ o'.hash_type = o.hash_type ∧
        o'.file.content = o.file.content ++
          ((if o.file.content = [] ∨ o.file.content.getLast? = some '\n'
            then [] else ['\n']) ++ (e.toStr d ++ ['\n']))) := by
  constructor
  · intro L oldH restL suf r hLdef hdrop hlast hint hparse hmatch hlen
    exact update_hit_from_cursor o e d P L oldH restL suf r ht hLdef hdrop
      hP hlast hint hparse hmatch hlen
  · intro hdrop
    have hguard : ¬ e.hash_type ≠ o.hash_type := by simp [ht]
    have hflat_len : P.flatten.length = o.file.content.length - o.file.pos := by
      rw [← hdrop]; simp
    have hPne : ∀ Li ∈ P, Li ≠ [] := fun Li hL => (hP Li hL).1
    have hPlen : P.length ≤ P.flatten.length := length_le_flatten_length hPne
    obtain ⟨m, hm⟩ : ∃ m,
        o.file.content.length - o.file.pos + 1 = P.length + m :=
      ⟨o.file.content.length - o.file.pos + 1 - P.length, by omega⟩
    have hscan := updateScanAux_skipBlock o.hash_type e.filepath
      (e.hashVal d) P m o.file [] hP (by rw [hdrop, List.append_nil])
    have hdrop2 : o.file.content.drop (o.file.pos + P.flatten.length) = [] := by
      rw [← List.drop_drop, hdrop, List.drop_length]
    have hend := updateScanAux_end o.hash_type e.filepath
      (e.hashVal d)
      { o.file with pos := o.file.pos + P.flatten.length }
      (by simp only [hdrop2]; rfl) m (o.file.pos + P.flatten.length)
    have happend := append_ok
      { o with file := { o.file with pos := o.file.pos + P.flatten.length } }
      e d ht
    refine ⟨{ o with file := ⟨o.file.content ++
      ((if o.file.content = [] ∨ o.file.content.getLast? = some '\n'
        then [] else ['\n']) ++ (e.toStr d ++ ['\n'])), o.file.pos⟩ },
      ?_, rfl, rfl, rfl⟩
    unfold OpenHashFile.update
    rw [if_neg hguard]
    dsimp only
    rw [hm, hscan, hend]
    dsimp only
    rw [happend]
    rfl

/-- C1 witness stream for the append-fallback conjunct: first line is an
entry for `f`, cursor at offset 6, so the scan only sees the second line
(an entry for `g`). -/
def streamC1w : OpenHashFile :=
  ⟨⟨"aa  f\ncc  g\n".toList, 6⟩, "sha256".toList⟩

/-- C1 witness entry targeting filepath `f`. -/
def entryC1w : HashEntry :=
  ⟨"bb".toList, ⟨"sha256".toList, []⟩, [], false, "f".toList⟩

/-- C1 witness stream for the overwrite conjunct: an entry for `f` before
the cursor (offset 6), then a non-matching line, then a second entry for
`f`, then a trailing line. -/
def streamC1a : OpenHashFile :=
  ⟨⟨"aa  f\ncc  g\nee  f\ndd  h\n".toList, 6⟩, "sha256".toList⟩

/-- The parse of the matched line in the C1 overwrite witness. -/
def parsedC1a : HashEntry :=
  ⟨"ee".toList, ⟨"sha256".toList, []⟩, "ee  f\n".toList, false, "f".toList⟩

/-- Lemma: the line `cc  g` of the witness manifests is a line the update
scan for filepath `f` steps over. -/
theorem skipsLine_ccg :
    SkipsLine ("sha256".toList) ("f".toList) ("cc  g\n".toList) :=
  ⟨by decide, by decide, by decide, _, rfl, by decide⟩

theorem C1_update_scans_from_cursor_witness :
    (streamC1a.update entryC1w [] = .ok { streamC1a with file :=
      ⟨streamC1a.file.content.take
          (streamC1a.file.pos +
            (["cc  g\n".toList] : List (List Char)).flatten.length) ++
        (entryC1w.hashVal [] ++ ("  f\n".toList ++ "dd  h\n".toList)),
        streamC1a.file.pos⟩ }) ∧
    (∃ o', streamC1w.update entryC1w [] = .ok o' ∧
      o'.file.pos = streamC1w.file.pos ∧
      o'.hash_type = streamC1w.hash_type ∧
      o'.file.content = streamC1w.file.content ++
        ((if streamC1w.file.content = [] ∨
            streamC1w.file.content.getLast? = some '\n'
          then [] else ['\n']) ++ (entryC1w.toStr [] ++ ['\n']))) :=
  ⟨(C1_update_scans_from_cursor streamC1a entryC1w [] ["cc  g\n".toList]
      (by decide)
      (by
        intro Li hL
        simp only [List.mem_singleton] at hL
        subst hL
        exact skipsLine_ccg)).1
      "ee  f\n".toList "ee".toList "  f\n".toList "dd  h\n".toList parsedC1a
      (by decide) (by decide) (by decide) (by decide) rfl (by decide)
      (by decide),
   (C1_update_scans_from_cursor streamC1w entryC1w [] ["cc  g\n".toList]
      (by decide)
      (by
        intro Li hL
        simp only [List.mem_singleton] at hL
        subst hL
        exact skipsLine_ccg)).2 (by decide)⟩

/-- C6: when the manifest consists of non-matching lines, then a line for
the target filepath, then arbitrary trailing bytes, `update` from cursor 0
with an equal-length replacement digest rewrites exactly the digest
substring of that line: every other byte is untouched, the total length is
unchanged and the cursor is restored to 0. -/
theorem C6_update_in_place (o : OpenHashFile) (e : HashEntry) (d : List Char)
    (P : List (List Char)) (L oldH restL suf : List Char) (r : HashEntry)
    (ht : e.hash_type = o.hash_type) (hpos : o.file.pos = 0)
    (hLdef : L = oldH ++ restL)
    (hcontent : o.file.content = P.flatten ++ (L ++ suf))
    (hP : ∀ Li ∈ P, SkipsLine o.hash_type e.filepath Li)
    (hlast : L.getLast? = some '\n') (hint : '\n' ∉ L.dropLast)
    (hparse : HashEntry.from_str L (some o.hash_type) = .ok r)
    (hmatch : e.filepath = r.filepath)
    (hlen : (e.hashVal d).length = oldH.length) :
    o.update e d =
      .ok { o with file :=
        ⟨P.flatten ++ (e.hashVal d ++ (restL ++ suf)), 0⟩ } ∧
    (P.flatten ++ (e.hashVal d ++ (restL ++ suf))).length =
      o.file.content.length := by
  have hguard : ¬ e.hash_type ≠ o.hash_type := by simp [ht]
  have hLne : L ≠ [] := by
    intro h; rw [h] at hlast; simp at hlast
  have hLpos : 0 < L.length := List.length_pos.mpr hLne
  have hPne : ∀ Li ∈ P, Li ≠ [] := fun Li hL => (hP Li hL).1
  have hPlen : P.length ≤ P.flatten.length := length_le_flatten_length hPne
  have hclen : o.file.content.length =
      P.flatten.length + (L.length + suf.length) := by
    rw [hcontent]; simp
  obtain ⟨m, hm⟩ : ∃ m,
      o.file.content.length - o.file.pos + 1 = P.length + (m + 1) :=
    ⟨o.file.content.length - o.file.pos + 1 - P.length - 1, by omega⟩
  have hscan := updateScanAux_skipBlock o.hash_type e.filepath
    (e.hashVal d) P (m + 1) o.file (L ++ suf) hP
    (by rw [hpos, List.drop_zero, hcontent])
  have htl : takeLine (o.file.content.drop
      (o.file.pos + P.flatten.length)) = L := by
    rw [hpos, Nat.zero_add, hcontent, List.drop_left]
    exact takeLine_terminated hlast hint suf
  have hhit := updateScanAux_hit o.hash_type e.filepath
    (e.hashVal d)
    { o.file with pos := o.file.pos + P.flatten.length }
    m (o.file.pos + P.flatten.length) htl hLne hparse hmatch
  have htake : o.file.content.take (o.file.pos + P.flatten.length) =
      P.flatten := by
    rw [hpos, Nat.zero_add, hcontent, List.take_left]
  have hdropnh : o.file.content.drop
      (o.file.pos + P.flatten.length + (e.hashVal d).length) =
      restL ++ suf := by
    rw [hpos, Nat.zero_add, hlen, hcontent, hLdef,
      show P.flatten ++ (oldH ++ restL ++ suf) =
        (P.flatten ++ oldH) ++ (restL ++ suf) from by simp,
      show P.flatten.length + oldH.length = (P.flatten ++ oldH).length from by simp,
      List.drop_left]
  constructor
  · unfold OpenHashFile.update
    rw [if_neg hguard]
    dsimp only
    rw [hm, hscan, hhit]
    dsimp only [FileStream.seekTo, FileStream.write]
    rw [htake, hdropnh, hpos, List.append_assoc]
  · rw [hclen, hLdef]
    simp only [List.length_append]
    omega

/-- C6 witness stream: a non-matching line, then the line for `f`, then a
trailing line. -/
def streamC6 : OpenHashFile :=
  ⟨⟨"cc  g\naa  f\ndd  h\n".toList, 0⟩, "sha256".toList⟩

/-- C6 witness entry: replacement digest `bb` for filepath `f`. -/
def entryC6 : HashEntry :=
  ⟨"bb".toList, ⟨"sha256".toList, []⟩, [], false, "f".toList⟩

/-- The parse of the matched line in the C6 witness manifest. -/
def parsedC6 : HashEntry :=
  ⟨"aa".toList, ⟨"sha256".toList, []⟩, "aa  f\n".toList, false, "f".toList⟩

theorem C6_update_in_place_witness :
    streamC6.update entryC6 [] =
      .ok { streamC6 with file :=
        ⟨("cc  g\n".toList : List Char) ++
          (entryC6.hashVal [] ++ ("  f\n".toList ++ "dd  h\n".toList)), 0⟩ } ∧
    (("cc  g\n".toList : List Char) ++
      (entryC6.hashVal [] ++ ("  f\n".toList ++ "dd  h\n".toList))).length =
      streamC6.file.content.length :=
  C6_update_in_place streamC6 entryC6 [] ["cc  g\n".toList] "aa  f\n".toList
    "aa".toList "  f\n".toList "dd  h\n".toList parsedC6
    (by decide) (by decide) (by decide) (by decide)
    (by
      intro Li hL
      simp only [List.mem_singleton] at hL
      subst hL
      exact ⟨by decide, by decide, by decide, _, rfl, by decide⟩)
    (by decide) (by decide) rfl (by decide) (by decide)

end Syphon
